import Mathlib

set_option maxRecDepth 20000

/-! Shallow embedding of the two pitch-tracking scripts (main.py and main2.py).
Floating-point frequencies are modelled as rationals, numpy/Python library calls
(np.median, np.mean, list slicing, round) as the corresponding exact functions, and
the external pitch primitive (librosa.yin) as an abstract function that may fail. -/

/-- Round a rational to the nearest integer, halves to the even neighbour: the
behaviour of Python's builtin round on the values the scripts produce. -/
def round_half_even (q : ℚ) : ℤ :=
  if q - ⌊q⌋ < 1 / 2 then ⌊q⌋
  else if 1 / 2 < q - ⌊q⌋ then ⌊q⌋ + 1
  else if ⌊q⌋ % 2 = 0 then ⌊q⌋ else ⌊q⌋ + 1

/-- Python round(x, 2), used on every smoothed and every gap-filled Hz value. -/
def round2 (q : ℚ) : ℚ := (round_half_even (q * 100) : ℚ) / 100

/-- Python round(x, 3), used on every emitted relative time. -/
def round3 (q : ℚ) : ℚ := (round_half_even (q * 1000) : ℚ) / 1000

/-- numpy.mean of a list of rationals (sum divided by length). -/
def npMean (l : List ℚ) : ℚ := l.sum / (l.length : ℚ)

/-- numpy.median of a list of rationals: sort, then the middle element for odd
length, the mean of the two middle elements for even length. -/
def npMedian (l : List ℚ) : ℚ :=
  if l.length % 2 = 1 then (l.insertionSort (· ≤ ·)).getD (l.length / 2) 0
  else ((l.insertionSort (· ≤ ·)).getD (l.length / 2 - 1) 0 +
        (l.insertionSort (· ≤ ·)).getD (l.length / 2) 0) / 2

/-- Python list slicing y[s:e] for nonnegative bounds (clamped at the length). -/
def listSlice (y : List ℚ) (s e : ℕ) : List ℚ := (y.take e).drop s

/-- The segment tiling rule shared by the mark loop of both scripts, the sub-window
loop of robust_pitch_detection, and prescan_300_marks: cnt spans of nominal width
len / cnt, the end of the last span forced to len. -/
def partition (len cnt : ℕ) : List (ℕ × ℕ) :=
  (List.range cnt).map (fun i =>
    (i * (len / cnt), if i < cnt - 1 then (i + 1) * (len / cnt) else len))

/-- The sample indices a span covers; used to state that partition tiles exactly. -/
def spanSamples (p : ℕ × ℕ) : List ℕ := List.range' p.1 (p.2 - p.1)

/-- The external pitch primitive (the librosa.yin call): given a segment and the
sample rate it either raises an exception (Except.error) or returns per-frame
results, where a frame is NaN (none) or a frequency. -/
abbrev Primitive : Type := List ℚ → ℚ → Except String (List (Option ℚ))

def MAX_VALID_HZ : ℚ := 350

def SUB_WINDOWS : ℕ := 5

/-- Upper edge of the yin search band in the source calls (fmax=500); any frequency
the primitive reports lies below it. -/
def FMAX : ℚ := 500

/-- Hypothesis on the abstract primitive: every frame frequency it reports is
nonnegative (every real frequency estimate is). -/
def FrameNonneg (yin : Primitive) : Prop :=
  ∀ segment sr frames h, yin segment sr = Except.ok frames → some h ∈ frames → 0 ≤ h

/-- Hypothesis on the abstract primitive: every frame frequency it reports lies in
[0, FMAX], as librosa.yin guarantees for the band fmin=50, fmax=500. -/
def FrameBand (yin : Primitive) : Prop :=
  ∀ segment sr frames h, yin segment sr = Except.ok frames → some h ∈ frames →
    0 ≤ h ∧ h ≤ FMAX

/-- detect_pitch from both scripts: run yin under a try/except, drop NaN frames,
return None when no frame remains (or on any exception), else the median of the
per-frame frequencies. -/
def detect_pitch (yin : Primitive) (segment : List ℚ) (sr : ℚ) : Option ℚ :=
  match yin segment sr with
  | Except.error _ => none
  | Except.ok frames =>
      if (frames.filterMap id).length = 0 then none
      else some (npMedian (frames.filterMap id))

/-- The sub-window loop of robust_pitch_detection: the segment is tiled into
SUB_WINDOWS spans (start = i * sub_len, end = (i+1) * sub_len except the last span,
whose end is the segment length — the partition arithmetic), and every sub-window
detect_pitch result that is concrete and below MAX_VALID_HZ is collected. -/
def sub_window_values (yin : Primitive) (segment : List ℚ) (sr : ℚ) : List ℚ :=
  (partition segment.length SUB_WINDOWS).filterMap (fun p =>
    match detect_pitch yin (listSlice segment p.1 p.2) sr with
    | some sub_hz => if sub_hz < MAX_VALID_HZ then some sub_hz else none
    | none => none)

/-- The tail of robust_pitch_detection after the whole-segment estimate is rejected:
the median of the collected sub-window values, or MAX_VALID_HZ if none were kept. -/
def robust_fallback (yin : Primitive) (segment : List ℚ) (sr : ℚ) : ℚ :=
  if 0 < (sub_window_values yin segment sr).length
  then npMedian (sub_window_values yin segment sr)
  else MAX_VALID_HZ

/-- robust_pitch_detection from both scripts: return the whole-segment detect_pitch
value when it is concrete and below MAX_VALID_HZ, otherwise fall back to the
sub-window analysis. -/
def robust_pitch_detection (yin : Primitive) (segment : List ℚ) (sr : ℚ) : ℚ :=
  match detect_pitch yin segment sr with
  | some hz => if hz < MAX_VALID_HZ then hz else robust_fallback yin segment sr
  | none => robust_fallback yin segment sr

/-- smooth_hz_values from both scripts: position 0 averages hz_list[0:2], the last
position averages hz_list[-2:], interior positions average hz_list[i-1:i+2]; every
output is rounded to 2 decimals. -/
def smooth_hz_values (hz_list : List ℚ) : List ℚ :=
  (List.range hz_list.length).map (fun i =>
    round2 (if i = 0 then npMean (hz_list.take 2)
            else if i = hz_list.length - 1 then npMean (hz_list.drop (hz_list.length - 2))
            else npMean (listSlice hz_list (i - 1) (i + 2))))

/-- One output row: file name, emitted mark index, relative time (rounded to 3
decimals), Hz value (rounded to 2 decimals). -/
structure MarkResult where
  sounding : String
  time_mark : ℕ
  relative_time_sec : ℚ
  hz : ℚ
deriving DecidableEq, Inhabited

namespace Main

def TIME_MARKS : ℕ := 10

/-- process_audio_file from main.py, taking the already loaded and silence-trimmed
waveform y and sample rate sr: tile y into TIME_MARKS segments, run
robust_pitch_detection on each, smooth the Hz sequence once, then emit one
MarkResult per mark with the segment midpoint time and mark index i+1. -/
def process_audio_file (yin : Primitive) (fileName : String) (y : List ℚ) (sr : ℚ) :
    List MarkResult :=
  let bounds := partition y.length TIME_MARKS
  let hz_values := smooth_hz_values
    (bounds.map (fun p => robust_pitch_detection yin (listSlice y p.1 p.2) sr))
  (List.range TIME_MARKS).map (fun i =>
    let p := bounds.getD i (0, 0)
    let midpoint_time := (((p.1 : ℚ) + (p.2 : ℚ)) / 2) / sr
    { sounding := fileName, time_mark := i + 1,
      relative_time_sec := round3 midpoint_time, hz := hz_values.getD i 0 })

end Main

namespace Main2

def MIN_VALID_HZ : ℚ := 75

def TIME_MARKS : ℕ := 20

def PRE_SCAN_MARKS : ℕ := 300

/-- One fine-grained reference point: span midpoint time and raw detect_pitch
result (None when undetermined). -/
structure RefPoint where
  time : ℚ
  hz : Option ℚ
deriving DecidableEq

/-- prescan_300_marks from main2.py: tile the waveform into PRE_SCAN_MARKS spans and
record, per span, the midpoint time and the raw detect_pitch value. -/
def prescan_300_marks (yin : Primitive) (y : List ℚ) (sr : ℚ) : List RefPoint :=
  (partition y.length PRE_SCAN_MARKS).map (fun p =>
    { time := (((p.1 : ℚ) + (p.2 : ℚ)) / 2) / sr,
      hz := detect_pitch yin (listSlice y p.1 p.2) sr })

/-- The filter inside find_nearest_valid_hz: the pre-scan points whose Hz is
concrete and at least MIN_VALID_HZ, kept in scan order as (time, hz) pairs. -/
def valid_points (prescan_data : List RefPoint) : List (ℚ × ℚ) :=
  prescan_data.filterMap (fun p =>
    match p.hz with
    | some h => if MIN_VALID_HZ ≤ h then some (p.time, h) else none
    | none => none)

/-- find_nearest_valid_hz from main2.py: MIN_VALID_HZ when no valid point exists,
else the Hz of the valid point with minimal time distance to the target; Python's
min keeps the first element attaining the minimum, which the foldl reproduces. -/
def find_nearest_valid_hz (target_time : ℚ) (prescan_data : List RefPoint) : ℚ :=
  match valid_points prescan_data with
  | [] => MIN_VALID_HZ
  | q :: qs =>
      (qs.foldl (fun b a => if |a.1 - target_time| < |b.1 - target_time| then a else b) q).2

/-- The mutable state of the output loop of main2.py's process_audio_file:
the (possibly patched) smoothed Hz list, reset_time, prev_end_time, and the rows
emitted so far. -/
structure LoopState where
  hz_values : List ℚ
  reset_time : ℚ
  prev_end_time : ℚ
  results : List MarkResult

/-- One iteration of the output loop of main2.py's process_audio_file at mark i:
patch hz_values[i] by the nearest valid pre-scan Hz (rounded to 2 decimals) when it
is below MIN_VALID_HZ, capture the reset anchor at i = 10, and emit the row with the
re-based time and restarted index for i ≥ 10. -/
def mark_step (fileName : String) (prescan_data : List RefPoint)
    (bounds : List (ℕ × ℕ)) (sr : ℚ) (st : LoopState) (i : ℕ) : LoopState :=
  let p := bounds.getD i (0, 0)
  let start_time : ℚ := (p.1 : ℚ) / sr
  let end_time : ℚ := (p.2 : ℚ) / sr
  let midpoint_time := (start_time + end_time) / 2
  let hz1 :=
    if st.hz_values.getD i 0 < MIN_VALID_HZ then
      st.hz_values.set i (round2 (find_nearest_valid_hz midpoint_time prescan_data))
    else st.hz_values
  let reset_time := if i = 10 then st.prev_end_time else st.reset_time
  let relative_time := if i < 10 then midpoint_time else midpoint_time - reset_time
  let excel_mark := if i < 10 then i + 1 else (i - 10) + 1
  { hz_values := hz1,
    reset_time := reset_time,
    prev_end_time := end_time,
    results := st.results ++ [{ sounding := fileName, time_mark := excel_mark,
                                relative_time_sec := round3 relative_time,
                                hz := hz1.getD i 0 }] }

/-- The output loop of main2.py's process_audio_file after n iterations, starting
from the smoothed Hz list sm. -/
def fold_state (fileName : String) (prescan_data : List RefPoint)
    (bounds : List (ℕ × ℕ)) (sr : ℚ) (sm : List ℚ) (n : ℕ) : LoopState :=
  (List.range n).foldl (mark_step fileName prescan_data bounds sr)
    { hz_values := sm, reset_time := 0, prev_end_time := 0, results := [] }

/-- process_audio_file from main2.py, taking the already loaded and silence-trimmed
waveform y and sample rate sr: pre-scan, tile into TIME_MARKS segments, robust
per-segment estimation, one smoothing pass, then the output loop with gap-filling
and the reset of the time axis at mark 10. -/
def process_audio_file (yin : Primitive) (fileName : String) (y : List ℚ) (sr : ℚ) :
    List MarkResult :=
  let prescan_data := prescan_300_marks yin y sr
  let bounds := partition y.length TIME_MARKS
  let hz_raw := bounds.map (fun p => robust_pitch_detection yin (listSlice y p.1 p.2) sr)
  (fold_state fileName prescan_data bounds sr (smooth_hz_values hz_raw) TIME_MARKS).results

/-- Midpoint time of mark i, as the output loop computes it. -/
def midTime (bounds : List (ℕ × ℕ)) (sr : ℚ) (i : ℕ) : ℚ :=
  ((((bounds.getD i (0, 0)).1 : ℚ) / sr) + (((bounds.getD i (0, 0)).2 : ℚ) / sr)) / 2

/-- End time of mark i in seconds. -/
def endTime (bounds : List (ℕ × ℕ)) (sr : ℚ) (i : ℕ) : ℚ :=
  ((bounds.getD i (0, 0)).2 : ℚ) / sr

/-- The Hz value main2.py emits for mark i: the smoothed value, except that a
smoothed value below MIN_VALID_HZ is replaced by the rounded nearest valid
pre-scan Hz. -/
def emitted_hz (prescan_data : List RefPoint) (bounds : List (ℕ × ℕ)) (sr : ℚ)
    (sm : List ℚ) (i : ℕ) : ℚ :=
  if sm.getD i 0 < MIN_VALID_HZ
  then round2 (find_nearest_valid_hz (midTime bounds sr i) prescan_data)
  else sm.getD i 0

/-- The row main2.py emits for mark i: index i+1 and midpoint time before the reset
boundary; index restarting from 1 and time re-based by the end time of mark 9 from
mark 10 on. -/
def resultAt (fileName : String) (prescan_data : List RefPoint)
    (bounds : List (ℕ × ℕ)) (sr : ℚ) (sm : List ℚ) (i : ℕ) : MarkResult :=
  { sounding := fileName,
    time_mark := if i < 10 then i + 1 else (i - 10) + 1,
    relative_time_sec := round3 (if i < 10 then midTime bounds sr i
                                 else midTime bounds sr i - endTime bounds sr 9),
    hz := emitted_hz prescan_data bounds sr sm i }

end Main2

/-- A mock primitive for concrete runs: one frame of 400 Hz on segments of two or
more samples, one frame of 30 Hz on shorter segments. -/
def probeYin : Primitive := fun segment _ =>
  Except.ok [some (if 2 ≤ segment.length then 400 else 30)]

/-- A mock primitive returning a single constant frame. -/
def constYin (v : ℚ) : Primitive := fun _ _ => Except.ok [some v]

/-- A mock primitive that always raises. -/
def errYin : Primitive := fun _ _ => Except.error ("mock failure")

/-- A 20-sample silent waveform used for concrete runs. -/
def probeWave : List ℚ := List.replicate 20 0

/-- File name used in concrete runs. -/
def probeName : String := "probe.wav"

/-! Rounding lemmas. -/

lemma round_half_even_intCast (k : ℤ) : round_half_even (k : ℚ) = k := by
  have h : ((k : ℚ)) - (⌊(k : ℚ)⌋ : ℚ) = 0 := by simp
  rw [round_half_even, if_pos]
  · exact Int.floor_intCast k
  · rw [h]; norm_num

lemma le_round_half_even (q : ℚ) : ⌊q⌋ ≤ round_half_even q := by
  rw [round_half_even]; split_ifs <;> omega

lemma round_half_even_le (q : ℚ) : round_half_even q ≤ ⌊q⌋ + 1 := by
  rw [round_half_even]; split_ifs <;> omega

lemma round_half_even_mono {x y : ℚ} (h : x ≤ y) :
    round_half_even x ≤ round_half_even y := by
  rcases lt_or_le ⌊x⌋ ⌊y⌋ with hf | hf
  · calc round_half_even x ≤ ⌊x⌋ + 1 := round_half_even_le x
      _ ≤ ⌊y⌋ := by omega
      _ ≤ round_half_even y := le_round_half_even y
  · have hfe : ⌊y⌋ = ⌊x⌋ := le_antisymm hf (Int.floor_le_floor h)
    rw [round_half_even, round_half_even, hfe]
    split_ifs <;> first | omega | linarith

lemma round2_mono {x y : ℚ} (h : x ≤ y) : round2 x ≤ round2 y := by
  rw [round2, round2, div_le_div_iff_of_pos_right (by norm_num : (0:ℚ) < 100)]
  exact_mod_cast round_half_even_mono (by linarith : x * 100 ≤ y * 100)

lemma round2_intCast (k : ℤ) : round2 (k : ℚ) = k := by
  have h : ((k : ℚ)) * 100 = ((k * 100 : ℤ) : ℚ) := by push_cast; ring
  rw [round2, h, round_half_even_intCast]
  push_cast
  ring

lemma round2_mem_Icc {a b x : ℚ} (ha : round2 a = a) (hb : round2 b = b)
    (h1 : a ≤ x) (h2 : x ≤ b) : a ≤ round2 x ∧ round2 x ≤ b :=
  ⟨by rw [← ha]; exact round2_mono h1, by rw [← hb]; exact round2_mono h2⟩

/-! Bounds for npMean and npMedian. -/

lemma npMean_mem_Icc {l : List ℚ} {a b : ℚ} (hne : l ≠ [])
    (h : ∀ x ∈ l, a ≤ x ∧ x ≤ b) : a ≤ npMean l ∧ npMean l ≤ b := by
  have hlen : 0 < (l.length : ℚ) := by
    have := List.length_pos.mpr hne
    exact_mod_cast this
  constructor
  · rw [npMean, le_div_iff₀ hlen]
    calc a * l.length = l.length • a := by rw [nsmul_eq_mul]; ring
      _ ≤ l.sum := List.card_nsmul_le_sum l a (fun x hx => (h x hx).1)
  · rw [npMean, div_le_iff₀ hlen]
    calc l.sum ≤ l.length • b := List.sum_le_card_nsmul l b (fun x hx => (h x hx).2)
      _ = b * l.length := by rw [nsmul_eq_mul]; ring

lemma sorted_getD_mem {l : List ℚ} {i : ℕ} (hi : i < l.length) :
    (l.insertionSort (· ≤ ·)).getD i 0 ∈ l := by
  have hperm := List.perm_insertionSort (· ≤ ·) l
  have hil : i < (l.insertionSort (· ≤ ·)).length := by rw [hperm.length_eq]; exact hi
  rw [List.getD_eq_getElem?_getD, List.getElem?_eq_getElem hil]
  exact hperm.mem_iff.mp (List.getElem_mem hil)

lemma npMedian_cases {l : List ℚ} (hne : l ≠ []) :
    (∃ x ∈ l, npMedian l = x) ∨
    (∃ x ∈ l, ∃ y ∈ l, npMedian l = (x + y) / 2) := by
  have hlpos : 0 < l.length := List.length_pos.mpr hne
  rw [npMedian]
  split_ifs with hpar
  · exact Or.inl ⟨_, sorted_getD_mem (by omega), rfl⟩
  · exact Or.inr ⟨_, sorted_getD_mem (by omega), _, sorted_getD_mem (by omega), rfl⟩

lemma npMedian_mem_Icc {l : List ℚ} {a b : ℚ} (hne : l ≠ [])
    (h : ∀ x ∈ l, a ≤ x ∧ x ≤ b) : a ≤ npMedian l ∧ npMedian l ≤ b := by
  rcases npMedian_cases hne with ⟨x, hx, he⟩ | ⟨x, hx, y, hy, he⟩
  · rw [he]; exact h x hx
  · obtain ⟨hx1, hx2⟩ := h x hx
    obtain ⟨hy1, hy2⟩ := h y hy
    rw [he]
    constructor <;> linarith

lemma le_npMedian {l : List ℚ} {a : ℚ} (hne : l ≠ [])
    (h : ∀ x ∈ l, a ≤ x) : a ≤ npMedian l := by
  rcases npMedian_cases hne with ⟨x, hx, he⟩ | ⟨x, hx, y, hy, he⟩
  · rw [he]; exact h x hx
  · have := h x hx
    have := h y hy
    rw [he]; linarith

/-! detect_pitch lemmas. -/

lemma detect_pitch_of_error {yin : Primitive} {segment : List ℚ} {sr : ℚ} {e : String}
    (h : yin segment sr = Except.error e) : detect_pitch yin segment sr = none := by
  simp [detect_pitch, h]

lemma detect_pitch_of_ok {yin : Primitive} {segment : List ℚ} {sr : ℚ}
    {frames : List (Option ℚ)} (h : yin segment sr = Except.ok frames) :
    detect_pitch yin segment sr =
      if (frames.filterMap id).length = 0 then none
      else some (npMedian (frames.filterMap id)) := by
  simp [detect_pitch, h]

lemma detect_pitch_some {yin : Primitive} {segment : List ℚ} {sr v : ℚ}
    (hd : detect_pitch yin segment sr = some v) :
    ∃ frames, yin segment sr = Except.ok frames ∧ frames.filterMap id ≠ [] ∧
      v = npMedian (frames.filterMap id) := by
  cases hok : yin segment sr with
  | error e => rw [detect_pitch_of_error hok] at hd; cases hd
  | ok frames =>
      rw [detect_pitch_of_ok hok] at hd
      by_cases hz : (frames.filterMap id).length = 0
      · rw [if_pos hz] at hd; cases hd
      · rw [if_neg hz] at hd
        refine ⟨frames, rfl, ?_, ?_⟩
        · intro hnil; rw [hnil] at hz; exact hz rfl
        · exact (Option.some_inj.mp hd).symm

lemma detect_pitch_nonneg {yin : Primitive} (hnn : FrameNonneg yin)
    {segment : List ℚ} {sr v : ℚ} (hd : detect_pitch yin segment sr = some v) :
    0 ≤ v := by
  obtain ⟨frames, hok, hne, hv⟩ := detect_pitch_some hd
  rw [hv]
  refine le_npMedian hne ?_
  intro x hx
  rw [List.mem_filterMap] at hx
  obtain ⟨o, ho, hid⟩ := hx
  simp only [id] at hid
  exact hnn segment sr frames x hok (hid ▸ ho)

lemma detect_pitch_band {yin : Primitive} (hb : FrameBand yin)
    {segment : List ℚ} {sr v : ℚ} (hd : detect_pitch yin segment sr = some v) :
    0 ≤ v ∧ v ≤ FMAX := by
  obtain ⟨frames, hok, hne, hv⟩ := detect_pitch_some hd
  rw [hv]
  refine npMedian_mem_Icc hne ?_
  intro x hx
  rw [List.mem_filterMap] at hx
  obtain ⟨o, ho, hid⟩ := hx
  simp only [id] at hid
  exact hb segment sr frames x hok (hid ▸ ho)

/-! robust_pitch_detection lemmas. -/

lemma sub_window_values_mem {yin : Primitive} {segment : List ℚ} {sr x : ℚ}
    (hx : x ∈ sub_window_values yin segment sr) :
    ∃ p ∈ partition segment.length SUB_WINDOWS,
      detect_pitch yin (listSlice segment p.1 p.2) sr = some x ∧ x < MAX_VALID_HZ := by
  simp only [sub_window_values, List.mem_filterMap] at hx
  obtain ⟨p, hp, hmatch⟩ := hx
  split at hmatch
  next v hd =>
    by_cases hv : v < MAX_VALID_HZ
    · rw [if_pos hv] at hmatch
      obtain rfl := Option.some_inj.mp hmatch
      exact ⟨p, hp, hd, hv⟩
    · rw [if_neg hv] at hmatch; cases hmatch
  next hd => cases hmatch

lemma robust_fallback_bounds {yin : Primitive} (hnn : FrameNonneg yin)
    (segment : List ℚ) (sr : ℚ) :
    0 ≤ robust_fallback yin segment sr ∧ robust_fallback yin segment sr ≤ MAX_VALID_HZ := by
  rw [robust_fallback]
  split_ifs with hl
  · have hne : sub_window_values yin segment sr ≠ [] := by
      intro h0; rw [h0] at hl; exact absurd hl (by simp)
    refine npMedian_mem_Icc hne ?_
    intro x hx
    obtain ⟨p, hp, hd, hlt⟩ := sub_window_values_mem hx
    exact ⟨detect_pitch_nonneg hnn hd, le_of_lt hlt⟩
  · refine ⟨?_, le_refl _⟩
    rw [MAX_VALID_HZ]; norm_num

lemma robust_bounds {yin : Primitive} (hnn : FrameNonneg yin)
    (segment : List ℚ) (sr : ℚ) :
    0 ≤ robust_pitch_detection yin segment sr ∧
      robust_pitch_detection yin segment sr ≤ MAX_VALID_HZ := by
  rw [robust_pitch_detection]
  split
  next hz hd =>
    by_cases hlt : hz < MAX_VALID_HZ
    · rw [if_pos hlt]
      exact ⟨detect_pitch_nonneg hnn hd, le_of_lt hlt⟩
    · rw [if_neg hlt]
      exact robust_fallback_bounds hnn segment sr
  next hd => exact robust_fallback_bounds hnn segment sr

lemma robust_eq_fallback {yin : Primitive} {segment : List ℚ} {sr : ℚ}
    (h : detect_pitch yin segment sr = none ∨
         (∃ hz, detect_pitch yin segment sr = some hz ∧ MAX_VALID_HZ ≤ hz)) :
    robust_pitch_detection yin segment sr = robust_fallback yin segment sr := by
  rcases h with hd | ⟨hz, hd, hge⟩
  · simp only [robust_pitch_detection, hd]
  · simp only [robust_pitch_detection, hd, if_neg (not_lt.mpr hge)]

lemma constYin_nonneg {v : ℚ} (hv : 0 ≤ v) : FrameNonneg (constYin v) := by
  intro segment sr frames h hok hm
  simp only [constYin, Except.ok.injEq] at hok
  rw [← hok] at hm
  simp only [List.mem_singleton, Option.some_inj] at hm
  rw [hm]; exact hv

lemma constYin_band {v : ℚ} (hv0 : 0 ≤ v) (hv1 : v ≤ FMAX) : FrameBand (constYin v) := by
  intro segment sr frames h hok hm
  simp only [constYin, Except.ok.injEq] at hok
  rw [← hok] at hm
  simp only [List.mem_singleton, Option.some_inj] at hm
  rw [hm]; exact ⟨hv0, hv1⟩

lemma probeYin_band : FrameBand probeYin := by
  intro segment sr frames h hok hm
  simp only [probeYin, Except.ok.injEq] at hok
  rw [← hok] at hm
  simp only [List.mem_singleton, Option.some_inj] at hm
  rw [hm]
  constructor <;> (split_ifs <;> norm_num [FMAX])

lemma errYin_band : FrameBand errYin := by
  intro segment sr frames h hok hm
  rw [errYin] at hok
  injection hok

/-- Claim C1: robust_pitch_detection always returns a concrete number in
[0, MAX_VALID_HZ]; the whole-segment detect_pitch median is returned whenever it is
concrete and strictly below MAX_VALID_HZ; otherwise the median of the concrete
sub-window medians below MAX_VALID_HZ is returned when any exist, and MAX_VALID_HZ
itself otherwise — under the hypothesis that the primitive yields only nonnegative
frequencies. -/
theorem robust_pitch_detection_spec (yin : Primitive) (segment : List ℚ) (sr : ℚ)
    (hnn : FrameNonneg yin) :
    (0 ≤ robust_pitch_detection yin segment sr ∧
      robust_pitch_detection yin segment sr ≤ MAX_VALID_HZ) ∧
    (∀ hz, detect_pitch yin segment sr = some hz → hz < MAX_VALID_HZ →
      robust_pitch_detection yin segment sr = hz) ∧
    ((detect_pitch yin segment sr = none ∨
        (∃ hz, detect_pitch yin segment sr = some hz ∧ MAX_VALID_HZ ≤ hz)) →
      (sub_window_values yin segment sr ≠ [] →
        robust_pitch_detection yin segment sr =
          npMedian (sub_window_values yin segment sr)) ∧
      (sub_window_values yin segment sr = [] →
        robust_pitch_detection yin segment sr = MAX_VALID_HZ)) := by
  refine ⟨robust_bounds hnn segment sr, ?_, ?_⟩
  · intro hz hd hlt
    simp only [robust_pitch_detection, hd, if_pos hlt]
  · intro hcase
    have hf := robust_eq_fallback hcase
    constructor
    · intro hne
      rw [hf, robust_fallback, if_pos (List.length_pos.mpr hne)]
    · intro hnil
      rw [hf, robust_fallback, if_neg]
      rw [hnil]
      simp

/-- Witness for robust_pitch_detection_spec at a concrete primitive and segment. -/
theorem robust_pitch_detection_spec_witness :
    robust_pitch_detection (constYin 100) probeWave 1 = 100 :=
  (robust_pitch_detection_spec (constYin 100) probeWave 1
      (constYin_nonneg (by norm_num))).2.1 100 (by with_unfolding_all rfl)
    (by rw [MAX_VALID_HZ]; norm_num)

/-! smooth_hz_values lemmas. -/

lemma smooth_length (l : List ℚ) : (smooth_hz_values l).length = l.length := by
  simp [smooth_hz_values]

lemma smooth_getD {l : List ℚ} {i : ℕ} (hi : i < l.length) :
    (smooth_hz_values l).getD i 0 =
      round2 (if i = 0 then npMean (l.take 2)
              else if i = l.length - 1 then npMean (l.drop (l.length - 2))
              else npMean (listSlice l (i - 1) (i + 2))) := by
  rw [smooth_hz_values, List.getD_eq_getElem?_getD, List.getElem?_map,
    List.getElem?_range hi]
  rfl

lemma npMean_single (x : ℚ) : npMean [x] = x := by
  simp [npMean]

lemma npMean_pair (x y : ℚ) : npMean [x, y] = (x + y) / 2 := by
  have hs : ([x, y] : List ℚ).sum = x + y := by simp
  have hl : (([x, y] : List ℚ).length : ℚ) = 2 := by simp
  rw [npMean, hs, hl]

lemma npMean_triple (x y z : ℚ) : npMean [x, y, z] = (x + y + z) / 3 := by
  have hs : ([x, y, z] : List ℚ).sum = x + y + z := by simp; ring
  have hl : (([x, y, z] : List ℚ).length : ℚ) = 3 := by simp
  rw [npMean, hs, hl]

lemma drop_pred_two {l : List ℚ} (h : 2 ≤ l.length) :
    l.drop (l.length - 2) = [l.getD (l.length - 2) 0, l.getD (l.length - 1) 0] := by
  induction l with
  | nil => simp at h
  | cons x xs ih =>
      rcases Nat.lt_or_ge xs.length 2 with h2 | h2
      · have hx1 : xs.length = 1 := by
          simp only [List.length_cons] at h
          omega
        obtain ⟨y, rfl⟩ := List.length_eq_one.mp hx1
        rfl
      · have e1 : (x :: xs).length - 2 = (xs.length - 2) + 1 := by
          simp only [List.length_cons]; omega
        have e2 : (x :: xs).length - 1 = (xs.length - 1) + 1 := by
          simp only [List.length_cons]; omega
        rw [e1, e2, List.drop_succ_cons, List.getD_cons_succ, List.getD_cons_succ,
          ih h2]

lemma take_drop_three (l : List ℚ) : ∀ s, s + 3 ≤ l.length →
    (l.take (s + 3)).drop s = [l.getD s 0, l.getD (s + 1) 0, l.getD (s + 2) 0] := by
  induction l with
  | nil => intro s hs; simp at hs
  | cons x xs ih =>
      intro s hs
      cases s with
      | zero =>
          simp only [List.length_cons] at hs
          rcases xs with _ | ⟨y, ys⟩
          · simp at hs
          · rcases ys with _ | ⟨z, zs⟩
            · simp at hs
            · rfl
      | succ t =>
          simp only [List.length_cons] at hs
          have e1 : t + 1 + 3 = (t + 3) + 1 := by omega
          have e3 : t + 1 + 2 = (t + 2) + 1 := by omega
          rw [e1, e3, List.take_succ_cons, List.drop_succ_cons, List.getD_cons_succ,
            List.getD_cons_succ, List.getD_cons_succ, ih t (by omega)]

/-- Claim C10: smooth_hz_values maps the empty list to the empty list and a
singleton [x] to [round2 x] — on a one-element list the first-position branch wins
over the last-position branch. -/
theorem smooth_edge_cases :
    smooth_hz_values ([] : List ℚ) = [] ∧
    ∀ x : ℚ, smooth_hz_values [x] = [round2 x] := by
  refine ⟨rfl, fun x => ?_⟩
  have hr : List.range 1 = [0] := rfl
  simp [smooth_hz_values, npMean_single, hr]

/-- Claim C7: smooth_hz_values is length preserving; on inputs of length at least 2
the first output is the rounded mean of the first two inputs, the last output the
rounded mean of the last two, and each interior output the rounded mean of the
three inputs around it. -/
theorem smooth_hz_values_spec (l : List ℚ) :
    (smooth_hz_values l).length = l.length ∧
    (2 ≤ l.length →
      (smooth_hz_values l).getD 0 0 = round2 ((l.getD 0 0 + l.getD 1 0) / 2) ∧
      (smooth_hz_values l).getD (l.length - 1) 0 =
        round2 ((l.getD (l.length - 2) 0 + l.getD (l.length - 1) 0) / 2) ∧
      (∀ i, 0 < i → i < l.length - 1 →
        (smooth_hz_values l).getD i 0 =
          round2 ((l.getD (i - 1) 0 + l.getD i 0 + l.getD (i + 1) 0) / 3))) := by
  refine ⟨smooth_length l, fun h2 => ⟨?_, ?_, ?_⟩⟩
  · rw [smooth_getD (by omega)]
    congr 1
    rw [if_pos rfl]
    rcases l with _ | ⟨a, _ | ⟨b, t⟩⟩
    · simp at h2
    · simp at h2
    · show npMean [a, b] = _
      rw [npMean_pair]
      rfl
  · rw [smooth_getD (by omega)]
    congr 1
    rw [if_neg (by omega), if_pos rfl, drop_pred_two h2, npMean_pair]
  · intro i h0 h1
    rw [smooth_getD (by omega)]
    congr 1
    rw [if_neg (by omega), if_neg (by omega)]
    have e : i + 2 = (i - 1) + 3 := by omega
    rw [listSlice, e, take_drop_three l (i - 1) (by omega), npMean_triple]
    have e1 : i - 1 + 1 = i := by omega
    have e2 : i - 1 + 2 = i + 1 := by omega
    rw [e1, e2]

/-- Witness for smooth_hz_values_spec on a concrete three-element list. -/
theorem smooth_hz_values_spec_witness :
    (smooth_hz_values [1, 2, 3]).getD 1 0 =
      round2 ((1 + 2 + 3) / 3) := by
  have h := ((smooth_hz_values_spec [1, 2, 3]).2 (by norm_num)).2.2 1 (by norm_num)
    (by norm_num)
  simpa using h

/-- Counterexample to claim C8 as stated: smoothing the constant one-element
sequence [1/3] does not return it unchanged, because every output is rounded to 2
decimals. -/
theorem smooth_const_counterexample :
    smooth_hz_values [(1 : ℚ) / 3] ≠ [(1 : ℚ) / 3] := by
  have he : smooth_hz_values [(1 : ℚ) / 3] = [(33 : ℚ) / 100] := by
    with_unfolding_all rfl
  rw [he]
  intro hc
  have h1 : (33 : ℚ) / 100 = 1 / 3 := by injection hc
  norm_num at h1

/-- Claim C8, amended: smoothing returns every nonempty constant sequence unchanged
provided its value is exact at two decimals (round2 v = v; the final rounding step
changes any other constant), and smoothing preserves the length of every input. -/
theorem smooth_const_fixed (v : ℚ) (n : ℕ) (l : List ℚ) (hv : round2 v = v) :
    smooth_hz_values (List.replicate (n + 1) v) = List.replicate (n + 1) v ∧
    (smooth_hz_values l).length = l.length := by
  refine ⟨?_, smooth_length l⟩
  have hrep : ∀ k : ℕ, 0 < k → npMean (List.replicate k v) = v := by
    intro k hk
    have hkq : (k : ℚ) ≠ 0 := Nat.cast_ne_zero.mpr (by omega)
    rw [npMean, List.sum_replicate, List.length_replicate, nsmul_eq_mul]
    exact mul_div_cancel_left₀ v hkq
  rw [List.eq_replicate_iff]
  refine ⟨by rw [smooth_length, List.length_replicate], ?_⟩
  intro b hb
  simp only [smooth_hz_values, List.length_replicate, List.mem_map,
    List.mem_range] at hb
  obtain ⟨i, hir, hbe⟩ := hb
  rw [← hbe]
  split_ifs with h0 hl
  · rw [List.take_replicate, hrep _ (by omega), hv]
  · rw [List.drop_replicate, hrep _ (by omega), hv]
  · rw [listSlice, List.take_replicate, List.drop_replicate, hrep _ (by omega), hv]

/-- Witness for smooth_const_fixed: the two-element constant sequence at 7/2. -/
theorem smooth_const_fixed_witness :
    smooth_hz_values (List.replicate 2 ((7 : ℚ) / 2)) =
      List.replicate 2 ((7 : ℚ) / 2) :=
  (smooth_const_fixed ((7 : ℚ) / 2) 1 [] (by with_unfolding_all rfl)).1

/-! partition lemmas (claim C4). -/

lemma partition_length (len cnt : ℕ) : (partition len cnt).length = cnt := by
  simp [partition]

lemma partition_getD {len cnt i : ℕ} (hi : i < cnt) :
    (partition len cnt).getD i (0, 0) =
      (i * (len / cnt), if i < cnt - 1 then (i + 1) * (len / cnt) else len) := by
  rw [partition, List.getD_eq_getElem?_getD, List.getElem?_map, List.getElem?_range hi]
  rfl

lemma flatten_uniform_spans (w : ℕ) :
    ∀ k, ((List.range k).map (fun i => List.range' (i * w) w)).flatten =
      List.range (k * w) := by
  intro k
  induction k with
  | zero => simp
  | succ n ih =>
      rw [List.range_succ, List.map_append, List.flatten_append, ih]
      simp only [List.map_cons, List.map_nil, List.flatten_cons, List.flatten_nil,
        List.append_nil]
      rw [List.range_eq_range', List.range_eq_range']
      have e1 : List.range' (n * w) w = List.range' (0 + 1 * (n * w)) w := by
        congr 1
        ring
      rw [e1, List.range'_append]
      congr 1
      ring

/-- Claim C4: for every length L and span count N ≥ 1, partition produces exactly N
spans; every span but the last has width L / N; consecutive spans are contiguous;
the first span starts at 0 and the last ends exactly at L, its width absorbing a
remainder of L % N ≤ N - 1 extra samples; and the spans jointly tile [0, L) exactly
once each, in order, with no gap or overlap. -/
theorem partition_spec (L N : ℕ) (hN : 1 ≤ N) :
    (partition L N).length = N ∧
    (∀ i, i < N - 1 →
      ((partition L N).getD i (0, 0)).2 - ((partition L N).getD i (0, 0)).1 = L / N) ∧
    (∀ i, i + 1 < N →
      ((partition L N).getD i (0, 0)).2 = ((partition L N).getD (i + 1) (0, 0)).1) ∧
    ((partition L N).getD 0 (0, 0)).1 = 0 ∧
    ((partition L N).getD (N - 1) (0, 0)).2 = L ∧
    ((partition L N).getD (N - 1) (0, 0)).2 -
        ((partition L N).getD (N - 1) (0, 0)).1 = L / N + L % N ∧
    L % N ≤ N - 1 ∧
    ((partition L N).map spanSamples).flatten = List.range L := by
  have hget : ∀ i, i < N →
      (partition L N).getD i (0, 0) =
        (i * (L / N), if i < N - 1 then (i + 1) * (L / N) else L) :=
    fun i hi => partition_getD hi
  refine ⟨partition_length L N, ?_, ?_, ?_, ?_, ?_, ?_, ?_⟩
  · intro i hi
    rw [hget i (by omega)]
    show (if i < N - 1 then (i + 1) * (L / N) else L) - i * (L / N) = L / N
    rw [if_pos hi, Nat.succ_mul]
    exact Nat.add_sub_cancel_left _ _
  · intro i hi
    rw [hget i (by omega), hget (i + 1) (by omega)]
    show (if i < N - 1 then (i + 1) * (L / N) else L) = (i + 1) * (L / N)
    rw [if_pos (by omega)]
  · rw [hget 0 (by omega)]
    show 0 * (L / N) = 0
    exact Nat.zero_mul _
  · rw [hget (N - 1) (by omega)]
    show (if N - 1 < N - 1 then (N - 1 + 1) * (L / N) else L) = L
    rw [if_neg (by omega)]
  · rw [hget (N - 1) (by omega)]
    show (if N - 1 < N - 1 then (N - 1 + 1) * (L / N) else L) - (N - 1) * (L / N) =
      L / N + L % N
    rw [if_neg (by omega)]
    have hdm := Nat.div_add_mod L N
    have e : N * (L / N) = (N - 1) * (L / N) + L / N := by
      have hs : N = (N - 1) + 1 := by omega
      calc N * (L / N) = ((N - 1) + 1) * (L / N) := by rw [← hs]
        _ = (N - 1) * (L / N) + L / N := Nat.succ_mul _ _
    generalize hq : L / N = q at hdm e ⊢
    generalize hr : L % N = r at hdm ⊢
    omega
  · have hm := Nat.mod_lt L (show 0 < N by omega)
    omega
  · obtain ⟨M, rfl⟩ : ∃ M, N = M + 1 := ⟨N - 1, by omega⟩
    rw [partition, List.map_map, List.range_succ, List.map_append,
      List.flatten_append]
    have hcong : (List.range M).map
        (spanSamples ∘ fun i => (i * (L / (M + 1)),
          if i < M + 1 - 1 then (i + 1) * (L / (M + 1)) else L)) =
        (List.range M).map
          (fun i => List.range' (i * (L / (M + 1))) (L / (M + 1))) := by
      apply List.map_congr_left
      intro i hi
      rw [List.mem_range] at hi
      simp only [Function.comp]
      rw [if_pos (by omega)]
      rw [spanSamples]
      show List.range' (i * (L / (M + 1)))
          ((i + 1) * (L / (M + 1)) - i * (L / (M + 1))) =
        List.range' (i * (L / (M + 1))) (L / (M + 1))
      congr 1
      rw [Nat.succ_mul]
      exact Nat.add_sub_cancel_left _ _
    rw [hcong, flatten_uniform_spans]
    simp only [List.map_cons, List.map_nil, List.flatten_cons, List.flatten_nil,
      List.append_nil, Function.comp]
    rw [if_neg (by omega), spanSamples]
    have hle : (M + 1) * (L / (M + 1)) ≤ L := by
      calc (M + 1) * (L / (M + 1)) = L / (M + 1) * (M + 1) := Nat.mul_comm _ _
        _ ≤ L := Nat.div_mul_le_self L (M + 1)
    have e2 : (M + 1) * (L / (M + 1)) = M * (L / (M + 1)) + L / (M + 1) :=
      Nat.succ_mul _ _
    generalize hq : L / (M + 1) = q at hle e2 ⊢
    have hle2 : M * q ≤ L := by omega
    rw [List.range_eq_range', List.range_eq_range']
    have e1 : List.range' (M * q) (L - M * q) =
        List.range' (0 + 1 * (M * q)) (L - M * q) := by
      congr 1
      ring
    rw [e1, List.range'_append]
    congr 1
    omega

/-- Witness for partition_spec: the exact tiling at L = 13, N = 5. -/
theorem partition_spec_witness :
    ((partition 13 5).map spanSamples).flatten = List.range 13 :=
  (partition_spec 13 5 (by norm_num)).2.2.2.2.2.2.2

/-! find_nearest_valid_hz lemmas (claim C6). -/

lemma foldl_min_le_init {α : Type} (f : α → ℚ) :
    ∀ (xs : List α) (x : α),
      f (xs.foldl (fun b a => if f a < f b then a else b) x) ≤ f x := by
  intro xs
  induction xs with
  | nil => intro x; exact le_refl _
  | cons a as ih =>
      intro x
      rw [List.foldl_cons]
      by_cases hc : f a < f x
      · rw [if_pos hc]
        exact le_trans (ih a) (le_of_lt hc)
      · rw [if_neg hc]
        exact ih x

lemma foldl_min_first {α : Type} (f : α → ℚ) :
    ∀ (xs : List α) (x : α), ∃ pre suf,
      x :: xs = pre ++ (xs.foldl (fun b a => if f a < f b then a else b) x) :: suf ∧
      (∀ p ∈ pre, f (xs.foldl (fun b a => if f a < f b then a else b) x) < f p) ∧
      (∀ p ∈ suf, f (xs.foldl (fun b a => if f a < f b then a else b) x) ≤ f p) := by
  intro xs
  induction xs with
  | nil =>
      intro x
      exact ⟨[], [], rfl, by simp, by simp⟩
  | cons a as ih =>
      intro x
      rw [List.foldl_cons]
      by_cases hc : f a < f x
      · rw [if_pos hc]
        obtain ⟨pre, suf, heq, hpre, hsuf⟩ := ih a
        refine ⟨x :: pre, suf, ?_, ?_, hsuf⟩
        · rw [List.cons_append, ← heq]
        · intro p hp
          rcases List.mem_cons.mp hp with rfl | hp2
          · exact lt_of_le_of_lt (foldl_min_le_init f as a) hc
          · exact hpre p hp2
      · rw [if_neg hc]
        obtain ⟨pre, suf, heq, hpre, hsuf⟩ := ih x
        rcases pre with _ | ⟨p0, pre2⟩
        · rw [List.nil_append] at heq
          injection heq with h1 h2
          refine ⟨[], a :: as, ?_, by simp, ?_⟩
          · rw [List.nil_append, ← h1]
          · intro p hp
            rcases List.mem_cons.mp hp with rfl | hp2
            · calc f (as.foldl (fun b a => if f a < f b then a else b) x) ≤ f x :=
                  foldl_min_le_init f as x
                _ ≤ f p := le_of_not_lt hc
            · exact hsuf p (by rw [← h2]; exact hp2)
        · rw [List.cons_append] at heq
          injection heq with h1 h2
          refine ⟨x :: a :: pre2, suf, ?_, ?_, hsuf⟩
          · rw [List.cons_append, List.cons_append, ← h2]
          · intro p hp
            have hrx : f (as.foldl (fun b a => if f a < f b then a else b) x) < f x := by
              have := hpre p0 (List.mem_cons_self p0 pre2)
              rw [← h1] at this
              exact this
            rcases List.mem_cons.mp hp with rfl | hp2
            · exact hrx
            · rcases List.mem_cons.mp hp2 with rfl | hp3
              · exact lt_of_lt_of_le hrx (le_of_not_lt hc)
              · exact hpre p (List.mem_cons_of_mem p0 hp3)

lemma valid_points_mem {ps : List Main2.RefPoint} {r : ℚ × ℚ}
    (hr : r ∈ Main2.valid_points ps) :
    Main2.RefPoint.mk r.1 (some r.2) ∈ ps ∧ Main2.MIN_VALID_HZ ≤ r.2 := by
  rw [Main2.valid_points, List.mem_filterMap] at hr
  obtain ⟨p, hp, hmatch⟩ := hr
  split at hmatch
  next h hhz =>
    by_cases hge : Main2.MIN_VALID_HZ ≤ h
    · rw [if_pos hge] at hmatch
      obtain rfl := Option.some_inj.mp hmatch
      refine ⟨?_, hge⟩
      have hpe : Main2.RefPoint.mk p.time (some h) = p := by rw [← hhz]
      exact hpe ▸ hp
    · rw [if_neg hge] at hmatch; cases hmatch
  next hhz => cases hmatch

/-- Claim C6: find_nearest_valid_hz keeps only pre-scan points with a concrete Hz at
least MIN_VALID_HZ; it returns MIN_VALID_HZ when no such point exists, and otherwise
the Hz of a valid point with minimal time distance to the target, the first such
point in scan order: every valid point before it is strictly farther and every one
after it at least as far. -/
theorem find_nearest_valid_hz_spec (target_time : ℚ)
    (prescan_data : List Main2.RefPoint) :
    (Main2.valid_points prescan_data = [] →
      Main2.find_nearest_valid_hz target_time prescan_data = Main2.MIN_VALID_HZ) ∧
    (Main2.valid_points prescan_data ≠ [] →
      ∃ r pre suf,
        Main2.find_nearest_valid_hz target_time prescan_data = r.2 ∧
        Main2.RefPoint.mk r.1 (some r.2) ∈ prescan_data ∧
        Main2.MIN_VALID_HZ ≤ r.2 ∧
        Main2.valid_points prescan_data = pre ++ r :: suf ∧
        (∀ p ∈ pre, |r.1 - target_time| < |p.1 - target_time|) ∧
        (∀ p ∈ suf, |r.1 - target_time| ≤ |p.1 - target_time|)) := by
  constructor
  · intro hnil
    simp only [Main2.find_nearest_valid_hz, hnil]
  · intro hne
    cases hcons : Main2.valid_points prescan_data with
    | nil => exact absurd hcons hne
    | cons q qs =>
        obtain ⟨pre, suf, heq, hpre, hsuf⟩ :=
          foldl_min_first (fun p : ℚ × ℚ => |p.1 - target_time|) qs q
        have hres : Main2.find_nearest_valid_hz target_time prescan_data =
            (qs.foldl (fun b a =>
              if |a.1 - target_time| < |b.1 - target_time| then a else b) q).2 := by
          simp only [Main2.find_nearest_valid_hz, hcons]
        have hmem : (qs.foldl (fun b a =>
            if |a.1 - target_time| < |b.1 - target_time| then a else b) q) ∈
            Main2.valid_points prescan_data := by
          rw [hcons, heq]
          exact List.mem_append_right _ (List.mem_cons_self _ _)
        obtain ⟨hmemps, hger⟩ := valid_points_mem hmem
        exact ⟨_, pre, suf, hres, hmemps, hger, heq, hpre, hsuf⟩

/-- Witness for find_nearest_valid_hz_spec on a concrete pre-scan list with one
valid point. -/
theorem find_nearest_valid_hz_spec_witness :
    Main2.find_nearest_valid_hz 0
      [Main2.RefPoint.mk 5 none, Main2.RefPoint.mk 1 (some 100)] = 100 := by
  have hv : Main2.valid_points
      [Main2.RefPoint.mk 5 none, Main2.RefPoint.mk 1 (some 100)] = [(1, 100)] := by
    with_unfolding_all rfl
  obtain ⟨r, pre, suf, hres, hmem, hge, hdecomp, hpre, hsuf⟩ :=
    (find_nearest_valid_hz_spec 0
      [Main2.RefPoint.mk 5 none, Main2.RefPoint.mk 1 (some 100)]).2
      (by rw [hv]; exact List.cons_ne_nil _ _)
  rw [hv] at hdecomp
  rcases pre with _ | ⟨p0, pre2⟩
  · rw [List.nil_append] at hdecomp
    injection hdecomp with h1 h2
    rw [hres, ← h1]
  · rw [List.cons_append] at hdecomp
    injection hdecomp with h1 h2
    exact absurd h2.symm (by simp)

/-! The output loop of main2.py: list update helpers and the loop invariant
(claims C2, C3, C5, C9). -/

lemma getD_set_self {l : List ℚ} {i : ℕ} (v d : ℚ) (h : i < l.length) :
    (l.set i v).getD i d = v := by
  rw [List.getD_eq_getElem?_getD, List.getElem?_set_self h]
  rfl

lemma getD_set_ne {l : List ℚ} {i j : ℕ} (v d : ℚ) (h : i ≠ j) :
    (l.set i v).getD j d = l.getD j d := by
  rw [List.getD_eq_getElem?_getD, List.getElem?_set_ne h, ← List.getD_eq_getElem?_getD]

lemma getD_mem_of_lt {l : List ℚ} {n : ℕ} (d : ℚ) (h : n < l.length) :
    l.getD n d ∈ l := by
  rw [List.getD_eq_getElem?_getD, List.getElem?_eq_getElem h]
  exact List.getElem_mem h

open Main2

lemma fold_state_succ (fileName : String) (prescan_data : List RefPoint)
    (bounds : List (ℕ × ℕ)) (sr : ℚ) (sm : List ℚ) (n : ℕ) :
    fold_state fileName prescan_data bounds sr sm (n + 1) =
      mark_step fileName prescan_data bounds sr
        (fold_state fileName prescan_data bounds sr sm n) n := by
  rw [fold_state, fold_state, List.range_succ, List.foldl_concat]

lemma mark_step_result_row (fileName : String) (prescan_data : List RefPoint)
    (bounds : List (ℕ × ℕ)) (sr : ℚ) (sm : List ℚ) (st : LoopState) (m : ℕ)
    (hm : m < sm.length)
    (hlen : st.hz_values.length = sm.length)
    (hread : st.hz_values.getD m 0 = sm.getD m 0)
    (hreset : st.reset_time = (if 11 ≤ m then endTime bounds sr 9 else 0))
    (hprev : st.prev_end_time = (if m = 0 then 0 else endTime bounds sr (m - 1))) :
    (mark_step fileName prescan_data bounds sr st m).results =
      st.results ++ [resultAt fileName prescan_data bounds sr sm m] := by
  simp only [endTime] at hreset hprev
  simp only [mark_step, resultAt, emitted_hz, midTime, endTime]
  congr 1
  congr 1
  rw [MarkResult.mk.injEq]
  refine ⟨rfl, rfl, ?_, ?_⟩
  · by_cases h10 : m < 10
    · rw [if_pos h10, if_pos h10]
    · rw [if_neg h10, if_neg h10]
      by_cases he : m = 10
      · subst he
        rw [if_pos rfl, hprev, if_neg (by norm_num)]
      · rw [if_neg he, hreset, if_pos (by omega)]
  · rw [hread]
    split_ifs with hc
    · exact getD_set_self _ _ (by rw [hlen]; exact hm)
    · exact hread

lemma mark_fold_invariant (fileName : String) (prescan_data : List RefPoint)
    (bounds : List (ℕ × ℕ)) (sr : ℚ) (sm : List ℚ) :
    ∀ n, n ≤ sm.length →
      (fold_state fileName prescan_data bounds sr sm n).results =
        (List.range n).map (resultAt fileName prescan_data bounds sr sm) ∧
      (fold_state fileName prescan_data bounds sr sm n).hz_values.length =
        sm.length ∧
      (∀ j, n ≤ j →
        (fold_state fileName prescan_data bounds sr sm n).hz_values.getD j 0 =
          sm.getD j 0) ∧
      (fold_state fileName prescan_data bounds sr sm n).reset_time =
        (if 11 ≤ n then endTime bounds sr 9 else 0) ∧
      (fold_state fileName prescan_data bounds sr sm n).prev_end_time =
        (if n = 0 then 0 else endTime bounds sr (n - 1)) := by
  intro n
  induction n with
  | zero => intro h0; exact ⟨rfl, rfl, fun j hj => rfl, rfl, rfl⟩
  | succ m ih =>
      intro hm
      obtain ⟨ihres, ihlen, ihget, ihreset, ihprev⟩ := ih (by omega)
      rw [fold_state_succ]
      refine ⟨?_, ?_, ?_, ?_, ?_⟩
      · rw [mark_step_result_row fileName prescan_data bounds sr sm _ m (by omega)
          ihlen (ihget m (le_refl m)) ihreset ihprev, ihres, List.range_succ,
          List.map_append, List.map_cons, List.map_nil]
      · simp only [mark_step]
        split_ifs
        · rw [List.length_set]; exact ihlen
        · exact ihlen
      · intro j hj
        simp only [mark_step]
        split_ifs
        · rw [getD_set_ne _ _ (by omega : m ≠ j)]
          exact ihget j (by omega)
        · exact ihget j (by omega)
      · simp only [mark_step]
        by_cases h10 : m = 10
        · subst h10
          rw [if_pos rfl, ihprev, if_neg (by norm_num), if_pos (by norm_num)]
        · rw [if_neg h10, ihreset]
          by_cases h11 : 11 ≤ m
          · rw [if_pos h11, if_pos (by omega)]
          · rw [if_neg h11, if_neg (by omega)]
      · simp only [mark_step]
        rw [if_neg (by omega : ¬(m + 1 = 0))]
        have e : m + 1 - 1 = m := by omega
        rw [e, endTime]

lemma process_gap_fill_closed_form (yin : Primitive) (fileName : String)
    (y : List ℚ) (sr : ℚ) :
    Main2.process_audio_file yin fileName y sr =
      (List.range TIME_MARKS).map
        (resultAt fileName (prescan_300_marks yin y sr)
          (partition y.length TIME_MARKS) sr
          (smooth_hz_values ((partition y.length TIME_MARKS).map
            (fun p => robust_pitch_detection yin (listSlice y p.1 p.2) sr)))) := by
  have hlen : (smooth_hz_values ((partition y.length TIME_MARKS).map
      (fun p => robust_pitch_detection yin (listSlice y p.1 p.2) sr))).length =
      TIME_MARKS := by
    rw [smooth_length, List.length_map, partition_length]
  exact (mark_fold_invariant fileName (prescan_300_marks yin y sr)
    (partition y.length TIME_MARKS) sr _ TIME_MARKS (by rw [hlen])).1

/-- Claim C3: in the gap-filling variant smoothing runs exactly once, over the full
per-file Hz sequence, before any gap-filling; mark i is replaced exactly when its
smoothed Hz is strictly below MIN_VALID_HZ, the replacement being
find_nearest_valid_hz at the mark midpoint rounded to 2 decimals; and every other
mark emits its smoothed value computed from the pre-replacement sequence, so a
replacement never feeds back into the neighbour averages of any other mark. -/
theorem gap_filling_spec (yin : Primitive) (fileName : String) (y : List ℚ)
    (sr : ℚ) :
    Main2.process_audio_file yin fileName y sr =
      (List.range TIME_MARKS).map
        (resultAt fileName (prescan_300_marks yin y sr)
          (partition y.length TIME_MARKS) sr
          (smooth_hz_values ((partition y.length TIME_MARKS).map
            (fun p => robust_pitch_detection yin (listSlice y p.1 p.2) sr)))) :=
  process_gap_fill_closed_form yin fileName y sr

lemma process_getD (yin : Primitive) (fileName : String) (y : List ℚ) (sr : ℚ)
    {i : ℕ} (hi : i < TIME_MARKS) :
    (Main2.process_audio_file yin fileName y sr).getD i default =
      resultAt fileName (prescan_300_marks yin y sr)
        (partition y.length TIME_MARKS) sr
        (smooth_hz_values ((partition y.length TIME_MARKS).map
          (fun p => robust_pitch_detection yin (listSlice y p.1 p.2) sr))) i := by
  rw [process_gap_fill_closed_form, List.getD_eq_getElem?_getD, List.getElem?_map,
    List.getElem?_range hi]
  rfl

/-- Claim C5: in the reset variant, marks 0..9 are emitted with mark index i+1 and
the (rounded) segment midpoint time; the reset anchor is the end time of mark 9's
segment; every mark from index 10 on is emitted with the midpoint time minus that
anchor and with mark index restarting at 1, so the emitted indices over one file
are 1..10 followed by 1..10. -/
theorem reset_time_axis_spec (yin : Primitive) (fileName : String) (y : List ℚ)
    (sr : ℚ) :
    ((Main2.process_audio_file yin fileName y sr).map (fun r => r.time_mark)) =
      [1, 2, 3, 4, 5, 6, 7, 8, 9, 10, 1, 2, 3, 4, 5, 6, 7, 8, 9, 10] ∧
    (∀ i, i < 10 →
      ((Main2.process_audio_file yin fileName y sr).getD i default).time_mark =
        i + 1 ∧
      ((Main2.process_audio_file yin fileName y sr).getD i
          default).relative_time_sec =
        round3 (midTime (partition y.length TIME_MARKS) sr i)) ∧
    (∀ i, 10 ≤ i → i < TIME_MARKS →
      ((Main2.process_audio_file yin fileName y sr).getD i default).time_mark =
        (i - 10) + 1 ∧
      ((Main2.process_audio_file yin fileName y sr).getD i
          default).relative_time_sec =
        round3 (midTime (partition y.length TIME_MARKS) sr i -
          endTime (partition y.length TIME_MARKS) sr 9)) := by
  refine ⟨?_, ?_, ?_⟩
  · rw [process_gap_fill_closed_form, List.map_map]
    rfl
  · intro i hi
    rw [process_getD yin fileName y sr (by rw [TIME_MARKS]; omega)]
    constructor
    · simp only [resultAt]
      rw [if_pos hi]
    · simp only [resultAt]
      rw [if_pos hi]
  · intro i h10 h20
    rw [process_getD yin fileName y sr h20]
    constructor
    · simp only [resultAt]
      rw [if_neg (by omega)]
    · simp only [resultAt]
      rw [if_neg (by omega)]

/-- Witness for reset_time_axis_spec at a concrete run: the mark at index 12 is
emitted with restarted index 3. -/
theorem reset_time_axis_spec_witness :
    ((Main2.process_audio_file (constYin 100) probeName probeWave 1).getD 12
      default).time_mark = 3 :=
  ((reset_time_axis_spec (constYin 100) probeName probeWave 1).2.2 12
    (by norm_num) (by rw [TIME_MARKS]; norm_num)).1

/-! Bounds on emitted Hz values (claims C2, C9). -/

lemma frameBand_nonneg {yin : Primitive} (hb : FrameBand yin) : FrameNonneg yin :=
  fun segment sr frames h hok hm => (hb segment sr frames h hok hm).1

lemma round2_zero_fix : round2 0 = 0 := by
  have h : (0 : ℚ) = ((0 : ℤ) : ℚ) := by norm_num
  rw [h, round2_intCast]

lemma round2_max_fix : round2 MAX_VALID_HZ = MAX_VALID_HZ := by
  have h : MAX_VALID_HZ = ((350 : ℤ) : ℚ) := by rw [MAX_VALID_HZ]; norm_num
  rw [h, round2_intCast]

lemma round2_min_fix : round2 MIN_VALID_HZ = MIN_VALID_HZ := by
  have h : MIN_VALID_HZ = ((75 : ℤ) : ℚ) := by rw [MIN_VALID_HZ]; norm_num
  rw [h, round2_intCast]

lemma round2_fmax_fix : round2 FMAX = FMAX := by
  have h : FMAX = ((500 : ℤ) : ℚ) := by rw [FMAX]; norm_num
  rw [h, round2_intCast]

lemma listSlice_subset {y : List ℚ} {s e : ℕ} {x : ℚ} (hx : x ∈ listSlice y s e) :
    x ∈ y :=
  List.mem_of_mem_take (List.mem_of_mem_drop hx)

lemma smooth_mem_Icc {l : List ℚ} {a b : ℚ} (ha : round2 a = a) (hb : round2 b = b)
    (h : ∀ x ∈ l, a ≤ x ∧ x ≤ b) : ∀ x ∈ smooth_hz_values l, a ≤ x ∧ x ≤ b := by
  intro x hx
  simp only [smooth_hz_values, List.mem_map, List.mem_range] at hx
  obtain ⟨i, hir, hbe⟩ := hx
  rw [← hbe]
  have hmean : ∀ s : List ℚ, s ≠ [] → (∀ z ∈ s, z ∈ l) →
      a ≤ npMean s ∧ npMean s ≤ b :=
    fun s hs hsub => npMean_mem_Icc hs (fun z hz => h z (hsub z hz))
  split_ifs with h0 hl
  · have hm := hmean (l.take 2)
      (by
        intro hnil
        have hlen := congrArg List.length hnil
        rw [List.length_take] at hlen
        simp only [List.length_nil] at hlen
        omega)
      (fun z hz => List.mem_of_mem_take hz)
    exact round2_mem_Icc ha hb hm.1 hm.2
  · have hm := hmean (l.drop (l.length - 2))
      (by
        intro hnil
        have hlen := congrArg List.length hnil
        rw [List.length_drop] at hlen
        simp only [List.length_nil] at hlen
        omega)
      (fun z hz => List.mem_of_mem_drop hz)
    exact round2_mem_Icc ha hb hm.1 hm.2
  · have hm := hmean (listSlice l (i - 1) (i + 2))
      (by
        intro hnil
        have hlen := congrArg List.length hnil
        rw [listSlice, List.length_drop, List.length_take] at hlen
        simp only [List.length_nil] at hlen
        omega)
      (fun z hz => listSlice_subset hz)
    exact round2_mem_Icc ha hb hm.1 hm.2

lemma main_hz_bounds {yin : Primitive} (hnn : FrameNonneg yin) (fileName : String)
    (y : List ℚ) (sr : ℚ) :
    ∀ r ∈ Main.process_audio_file yin fileName y sr,
      0 ≤ r.hz ∧ r.hz ≤ MAX_VALID_HZ := by
  intro r hr
  simp only [Main.process_audio_file, List.mem_map, List.mem_range] at hr
  obtain ⟨i, hir, hre⟩ := hr
  rw [← hre]
  have hlist : ∀ x ∈ (partition y.length Main.TIME_MARKS).map
      (fun p => robust_pitch_detection yin (listSlice y p.1 p.2) sr),
      0 ≤ x ∧ x ≤ MAX_VALID_HZ := by
    intro x hx
    rw [List.mem_map] at hx
    obtain ⟨p, hp, hxe⟩ := hx
    rw [← hxe]
    exact robust_bounds hnn _ sr
  apply smooth_mem_Icc round2_zero_fix round2_max_fix hlist
  apply getD_mem_of_lt
  rw [smooth_length, List.length_map, partition_length]
  exact hir

lemma find_nearest_bounds {yin : Primitive} (hband : FrameBand yin) (y : List ℚ)
    (sr t : ℚ) :
    MIN_VALID_HZ ≤ find_nearest_valid_hz t (prescan_300_marks yin y sr) ∧
    find_nearest_valid_hz t (prescan_300_marks yin y sr) ≤ FMAX := by
  cases hcons : valid_points (prescan_300_marks yin y sr) with
  | nil =>
      simp only [find_nearest_valid_hz, hcons]
      refine ⟨le_refl _, ?_⟩
      rw [MIN_VALID_HZ, FMAX]
      norm_num
  | cons q qs =>
      simp only [find_nearest_valid_hz, hcons]
      obtain ⟨pre, suf, heq, hpre, hsuf⟩ :=
        foldl_min_first (fun p : ℚ × ℚ => |p.1 - t|) qs q
      have hmem : (qs.foldl (fun b a => if |a.1 - t| < |b.1 - t| then a else b) q)
          ∈ valid_points (prescan_300_marks yin y sr) := by
        rw [hcons, heq]
        exact List.mem_append_right _ (List.mem_cons_self _ _)
      obtain ⟨hmemps, hge⟩ := valid_points_mem hmem
      refine ⟨hge, ?_⟩
      rw [prescan_300_marks, List.mem_map] at hmemps
      obtain ⟨p, hp, hpe⟩ := hmemps
      have hhz := congrArg RefPoint.hz hpe
      exact (detect_pitch_band hband hhz).2

lemma main2_hz_bounds {yin : Primitive} (hband : FrameBand yin) (fileName : String)
    (y : List ℚ) (sr : ℚ) :
    ∀ r ∈ Main2.process_audio_file yin fileName y sr,
      MIN_VALID_HZ ≤ r.hz ∧ r.hz ≤ FMAX := by
  intro r hr
  rw [process_gap_fill_closed_form] at hr
  simp only [List.mem_map, List.mem_range] at hr
  obtain ⟨i, hir, hre⟩ := hr
  rw [← hre]
  show MIN_VALID_HZ ≤ emitted_hz _ _ _ _ i ∧ emitted_hz _ _ _ _ i ≤ FMAX
  rw [emitted_hz]
  split_ifs with hlow
  · obtain ⟨hfn1, hfn2⟩ := find_nearest_bounds hband y sr
      (midTime (partition y.length TIME_MARKS) sr i)
    have hr2 := round2_mem_Icc round2_min_fix round2_fmax_fix hfn1 hfn2
    exact hr2
  · refine ⟨le_of_not_lt hlow, ?_⟩
    have hlist : ∀ x ∈ (partition y.length TIME_MARKS).map
        (fun p => robust_pitch_detection yin (listSlice y p.1 p.2) sr),
        0 ≤ x ∧ x ≤ MAX_VALID_HZ := by
      intro x hx
      rw [List.mem_map] at hx
      obtain ⟨p, hp, hxe⟩ := hx
      rw [← hxe]
      exact robust_bounds (frameBand_nonneg hband) _ sr
    have hsm := smooth_mem_Icc round2_zero_fix round2_max_fix hlist
      ((smooth_hz_values ((partition y.length TIME_MARKS).map
        (fun p => robust_pitch_detection yin (listSlice y p.1 p.2) sr))).getD i 0)
      (by
        apply getD_mem_of_lt
        rw [smooth_length, List.length_map, partition_length]
        exact hir)
    calc (smooth_hz_values _).getD i 0 ≤ MAX_VALID_HZ := hsm.2
      _ ≤ FMAX := by rw [MAX_VALID_HZ, FMAX]; norm_num

/-- Counterexample to claim C2 as stated: with the probe primitive on a 20-sample
waveform, the gap-filling variant emits 400 Hz for mark 0 — outside
[0, MAX_VALID_HZ] — because the pre-scan replacement is filtered only from below
(hz ≥ MIN_VALID_HZ), never against MAX_VALID_HZ. -/
theorem mark_hz_ranges_counterexample :
    MAX_VALID_HZ <
      ((Main2.process_audio_file probeYin probeName probeWave 1).getD 0
        default).hz := by
  have he : ((Main2.process_audio_file probeYin probeName probeWave 1).getD 0
      default).hz = 400 := by
    with_unfolding_all rfl
  rw [he, MAX_VALID_HZ]
  norm_num

/-- Claim C2, amended: in the plain variant every emitted hz lies in
[0, MAX_VALID_HZ]; in the gap-filling variant every emitted hz is at least
MIN_VALID_HZ (the smoothed value when that is not below the floor, otherwise the
rounded pre-scan replacement, which is at least the floor) and at most FMAX — a
gap-filled replacement is not bounded by MAX_VALID_HZ (see the counterexample). -/
theorem mark_hz_ranges (yin : Primitive) (hband : FrameBand yin)
    (fn1 fn2 : String) (y1 y2 : List ℚ) (sr1 sr2 : ℚ) :
    (∀ r ∈ Main.process_audio_file yin fn1 y1 sr1,
      0 ≤ r.hz ∧ r.hz ≤ MAX_VALID_HZ) ∧
    (∀ r ∈ Main2.process_audio_file yin fn2 y2 sr2,
      MIN_VALID_HZ ≤ r.hz ∧ r.hz ≤ FMAX) :=
  ⟨main_hz_bounds (frameBand_nonneg hband) fn1 y1 sr1,
   main2_hz_bounds hband fn2 y2 sr2⟩

/-- Witness for mark_hz_ranges at the probe primitive and waveform. -/
theorem mark_hz_ranges_witness :
    (∀ r ∈ Main.process_audio_file probeYin probeName probeWave 1,
      0 ≤ r.hz ∧ r.hz ≤ MAX_VALID_HZ) ∧
    (∀ r ∈ Main2.process_audio_file probeYin probeName probeWave 1,
      MIN_VALID_HZ ≤ r.hz ∧ r.hz ≤ FMAX) :=
  mark_hz_ranges probeYin probeYin_band probeName probeName probeWave probeWave 1 1

/-- Claim C9: an exception raised by the primitive, and a primitive result with no
concrete frame, are converted to the undetermined result at the detect_pitch
boundary for that single segment and never propagate: both per-file pipelines
always complete with exactly TIME_MARKS rows, and every row carries a concrete,
bounded Hz through the fallback values. -/
theorem estimation_failure_recovery (yin : Primitive) (hband : FrameBand yin)
    (fn1 fn2 : String) (y1 y2 : List ℚ) (sr1 sr2 : ℚ) :
    (∀ segment sr e, yin segment sr = Except.error e →
      detect_pitch yin segment sr = none) ∧
    (∀ segment sr frames, yin segment sr = Except.ok frames →
      frames.filterMap id = [] → detect_pitch yin segment sr = none) ∧
    (Main.process_audio_file yin fn1 y1 sr1).length = Main.TIME_MARKS ∧
    (Main2.process_audio_file yin fn2 y2 sr2).length = TIME_MARKS ∧
    (∀ r ∈ Main.process_audio_file yin fn1 y1 sr1,
      0 ≤ r.hz ∧ r.hz ≤ MAX_VALID_HZ) ∧
    (∀ r ∈ Main2.process_audio_file yin fn2 y2 sr2,
      0 ≤ r.hz ∧ r.hz ≤ FMAX) := by
  refine ⟨?_, ?_, ?_, ?_, main_hz_bounds (frameBand_nonneg hband) fn1 y1 sr1, ?_⟩
  · intro segment sr e he
    exact detect_pitch_of_error he
  · intro segment sr frames hok hnil
    rw [detect_pitch_of_ok hok, if_pos (by rw [hnil]; rfl)]
  · simp only [Main.process_audio_file]
    rw [List.length_map, List.length_range]
  · rw [process_gap_fill_closed_form, List.length_map, List.length_range]
  · intro r hr
    obtain ⟨h1, h2⟩ := main2_hz_bounds hband fn2 y2 sr2 r hr
    refine ⟨le_trans ?_ h1, h2⟩
    rw [MIN_VALID_HZ]
    norm_num

/-- Witness for estimation_failure_recovery at the always-raising primitive: the
gap-filling pipeline still emits exactly TIME_MARKS rows. -/
theorem estimation_failure_recovery_witness :
    (Main2.process_audio_file errYin probeName probeWave 1).length = TIME_MARKS :=
  (estimation_failure_recovery errYin errYin_band probeName probeName probeWave
    probeWave 1 1).2.2.2.1
